import Mathlib

/-!
Verification development for the blog-title generation service
(`blog/utils.py` and `blog/views.py`).

Strings are modelled as `List Char`. Python floats that only ever hold
multiples of 0.1 between -1 and 1 (the confidence scores) are modelled as
integers in hundredths (0.9 ↦ 90), so `round(x, 2)` is the identity and the
claims about ordering and sign are exact. Character classes (`\w`, `\s`,
`str.upper`, `str.lower`, `str.title`, `str.capitalize`) are modelled at the
ASCII level, which covers every character the claims and the repository's
fixed word lists mention; the curly-quote code points that `clean_content`
and `_clean_title` normalise explicitly are included as named characters.
-/

set_option maxRecDepth 2000

namespace TitleGen

/-- U+0022, the double quote stripped by `_clean_title`. -/
def quoteChar : Char := Char.ofNat 34

/-- U+0027, the straight apostrophe the quote normalisations map to. -/
def aposChar : Char := Char.ofNat 39

/-- U+0060, the backtick normalised by `_clean_title`. -/
def backqChar : Char := Char.ofNat 96

/-- U+2019, the right curly apostrophe normalised by both cleaners. -/
def rsqChar : Char := Char.ofNat 8217

/-- U+2018, the left curly apostrophe normalised by `clean_content`. -/
def lsqChar : Char := Char.ofNat 8216

/-- U+201C, the left curly double quote normalised by `clean_content`. -/
def ldqChar : Char := Char.ofNat 8220

/-- U+201D, the right curly double quote normalised by `clean_content`. -/
def rdqChar : Char := Char.ofNat 8221

/-- ASCII whitespace, the `\s` class of the regexes and `str.strip`/`str.split`:
space, tab, LF, VT, FF, CR. -/
def isWS (c : Char) : Bool :=
  decide (c.toNat = 32 ∨ (9 ≤ c.toNat ∧ c.toNat ≤ 13))

/-- `str.upper` on one ASCII character. -/
def upChar (c : Char) : Char :=
  if 97 ≤ c.toNat ∧ c.toNat ≤ 122 then Char.ofNat (c.toNat - 32) else c

/-- `str.lower` on one ASCII character. -/
def lowChar (c : Char) : Char :=
  if 65 ≤ c.toNat ∧ c.toNat ≤ 90 then Char.ofNat (c.toNat + 32) else c

/-- The `\w` class (ASCII): letters, digits, underscore. -/
def isWordChar (c : Char) : Bool :=
  (48 ≤ c.toNat && c.toNat ≤ 57) || (65 ≤ c.toNat && c.toNat ≤ 90) ||
    (97 ≤ c.toNat && c.toNat ≤ 122) || c.toNat = 95

/-- Is the character an ASCII letter (a cased character for `str.title`)? -/
def isAlphaChar (c : Char) : Bool :=
  (65 ≤ c.toNat && c.toNat ≤ 90) || (97 ≤ c.toNat && c.toNat ≤ 122)

/-- `str.upper` on a string. -/
def upperStr (l : List Char) : List Char := l.map upChar

/-- `str.lower` on a string. -/
def lowerStr (l : List Char) : List Char := l.map lowChar

/-- `str.capitalize`: first character uppercased, the rest lowercased. -/
def capitalizePy : List Char → List Char
  | [] => []
  | c :: cs => upChar c :: cs.map lowChar

/-- Helper for `str.title`: the flag records whether the previous character
was a cased (letter) character, i.e. whether we are inside a word. -/
def pyTitleAux : Bool → List Char → List Char
  | _, [] => []
  | prev, c :: cs =>
    if isAlphaChar c then
      (if prev then lowChar c else upChar c) :: pyTitleAux true cs
    else
      c :: pyTitleAux false cs

/-- Python `str.title` (ASCII): uppercase each letter that starts a letter
run, lowercase the other letters. -/
def pyTitle (l : List Char) : List Char := pyTitleAux false l

/-- Helper for `str.split()` (no separator): accumulate the current word in
reverse, emit it at each whitespace boundary, drop empty words. -/
def wordsAux : List Char → List Char → List (List Char)
  | [], cur => if cur = [] then [] else [cur.reverse]
  | c :: cs, cur =>
    if isWS c then
      (if cur = [] then wordsAux cs [] else cur.reverse :: wordsAux cs [])
    else wordsAux cs (c :: cur)

/-- Python `str.split()`: split on whitespace runs, no empty tokens. -/
def wordsOf (l : List Char) : List (List Char) := wordsAux l []

/-- Python `' '.join`. -/
def joinSp : List (List Char) → List Char
  | [] => []
  | [w] => w
  | w :: ws => w ++ ' ' :: joinSp ws

/-- `re.sub(r'\s+', ' ', s.strip())`: stripping the ends and collapsing every
internal whitespace run to one space is the same as splitting into words and
rejoining them with single spaces. -/
def collapseWS (l : List Char) : List Char := joinSp (wordsOf l)

/-- Python `str.strip()`. -/
def stripWS (l : List Char) : List Char :=
  ((l.dropWhile isWS).reverse.dropWhile isWS).reverse

/-- Python `str.rstrip('.')`. -/
def dropTrailingDots (l : List Char) : List Char :=
  (l.reverse.dropWhile (fun c => c = '.')).reverse

/-- Python `str.split('.')`: `""` gives `[""]`, separators are kept as
boundaries (`"a.b."` gives `["a","b",""]`). -/
def splitDot : List Char → List (List Char)
  | [] => [[]]
  | c :: cs =>
    if c = '.' then [] :: splitDot cs
    else
      match splitDot cs with
      | [] => [[c]]
      | w :: ws => (c :: w) :: ws

/-! ## `TitleGenerator.clean_content` (utils.py lines 41-68) -/

/-- Lines 46-47: normalise curly apostrophes and curly double quotes. -/
def mapQuotes (l : List Char) : List Char :=
  l.map fun c =>
    if c = rsqChar then aposChar
    else if c = lsqChar then aposChar
    else if c = ldqChar then quoteChar
    else if c = rdqChar then quoteChar
    else c

/-- Line 53: keep only `[\w\s.,!?-]`. -/
def keepChar (c : Char) : Bool :=
  isWordChar c || isWS c || c = '.' || c = ',' || c = '!' || c = '?' || c = '-'

/-- Lines 59-63: the greedy sentence-reassembly loop. `acc` is the `content`
variable, which has just been reassigned to `""` before the loop. -/
def reassemble (acc : List Char) : List (List Char) → List Char
  | [] => acc
  | s :: rest =>
    if 800 < (acc ++ s).length then acc
    else reassemble (acc ++ s ++ ['.']) rest

/-- Lines 56-66: the length-limiting step. Note the faithful slip: at line 66
`content` has already been overwritten by the (empty) loop result, so
`content[:800] + "..."` truncates the empty string, not the original text. -/
def truncate800 (content : List Char) : List Char :=
  if 800 < content.length then
    if reassemble [] (splitDot content) = [] then
      (reassemble [] (splitDot content)).take 800 ++ "...".data
    else reassemble [] (splitDot content)
  else content

/-- `TitleGenerator.clean_content`. -/
def cleanContent (content : List Char) : List Char :=
  if content = [] then []
  else truncate800 ((collapseWS (mapQuotes content)).filter keepChar)

/-! ## `TitleGenerator._clean_title` (utils.py lines 136-175) -/

/-- Line 154: the `always_caps` set, verbatim (note the mixed-case entries
`SaaS` and `IoT`). -/
def alwaysCaps : List (List Char) :=
  ["AI".data, "API".data, "ML".data, "NLP".data, "IoT".data, "SaaS".data,
    "CEO".data, "CTO".data, "IT".data, "UI".data, "UX".data, "SEO".data,
    "ROI".data]

/-- Line 157: the `articles_prepositions` set. -/
def articlesPreps : List (List Char) :=
  ["a".data, "an".data, "the".data, "and".data, "or".data, "but".data,
    "in".data, "on".data, "at".data, "to".data, "for".data, "of".data,
    "with".data, "by".data]

/-- Lines 160-173: the per-word casing of `_clean_title`, `i` being the word
index. -/
def caseWord (i : Nat) (w : List Char) : List Char :=
  if upperStr w ∈ alwaysCaps then upperStr w
  else if i = 0 then capitalizePy w
  else if lowerStr w ∈ articlesPreps then lowerStr w
  else if 3 < w.length then capitalizePy w
  else lowerStr w

/-- The `for i, word in enumerate(words)` loop of `_clean_title`. -/
def caseWords (i : Nat) : List (List Char) → List (List Char)
  | [] => []
  | w :: ws => caseWord i w :: caseWords (i + 1) ws

/-- Line 142: strip double quotes, normalise curly apostrophes and backticks
to a straight apostrophe. -/
def titleQuotes (l : List Char) : List Char :=
  (l.filter fun c => ¬ c = quoteChar).map fun c =>
    if c = rsqChar then aposChar else if c = backqChar then aposChar else c

/-- `TitleGenerator._clean_title` (the spec's `TitleFormatter.format`):
strip/normalise quotes (line 142), collapse whitespace (line 143), strip
trailing periods (line 146), split into words (line 149), bail out on no
words (lines 150-151), then case each word and rejoin (lines 159-175). -/
def cleanTitle (title : List Char) : List Char :=
  if title = [] then []
  else if wordsOf (dropTrailingDots (collapseWS (titleQuotes title))) = [] then
    []
  else
    joinSp (caseWords 0
      (wordsOf (dropTrailingDots (collapseWS (titleQuotes title)))))

/-! ## The candidate data model (section 3 of the spec) -/

/-- The `method` tag of a produced candidate. -/
inductive GenMethod where
  | ai
  | rule_based
  | smart_fallback
  | basic_fallback
deriving DecidableEq

/-- One generated title candidate (`{'title': ..., 'confidence': ...,
'method': ...}`); confidence in hundredths. -/
structure Candidate where
  title : List Char
  confidence : Int
  method : GenMethod
deriving DecidableEq

/-- The tier hierarchy of section 3 of the spec, highest tier first:
AI, then rule-based, then smart fallback, then basic fallback. -/
def tierRank : GenMethod → Nat
  | .ai => 0
  | .rule_based => 1
  | .smart_fallback => 2
  | .basic_fallback => 3

/-- Decimal rendering of a natural number, for the `f"...{i+1}"` strings. -/
def natStr (n : Nat) : List Char := (Nat.repr n).data

/-! ## `TitleGenerator._rule_based_titles` (utils.py lines 177-217) -/

/-- Lines 189-200: the ten title templates, as (prefix, suffix) around the
`{}` placeholder. -/
def ruleTemplates : List (List Char × List Char) :=
  [("Understanding ".data, []),
    ("A Complete Guide to ".data, []),
    ("Everything You Need to Know About ".data, []),
    ("The Future of ".data, []),
    ("How to Master ".data, []),
    ("The Ultimate ".data, " Guide".data),
    ("Exploring ".data, []),
    ("The Power of ".data, []),
    ("Why ".data, " Matters".data),
    ("Getting Started with ".data, [])]

/-- `template.format(phrase)`. -/
def fillTemplate (t : List Char × List Char) (p : List Char) : List Char :=
  t.1 ++ p ++ t.2

/-- Lines 182-186: the overlapping two-word windows, title-cased, keeping
those of rendered length > 6. -/
def keyPhrasesOf (ws : List (List Char)) : List (List Char) :=
  ((List.range (ws.length - 1)).map fun i =>
      pyTitle (joinSp [ws.getD i [], ws.getD (i + 1) []])).filter
    fun p => 6 < p.length

/-- Lines 205-215: the emission loop over phrase indices, tracking the
`used_phrases` set. -/
def ruleLoop (ph : List (List Char)) (used : List (List Char)) :
    List Nat → List Candidate
  | [] => []
  | i :: rest =>
    if i < ph.length ∧ ph.getD i [] ∉ used then
      { title := fillTemplate (ruleTemplates.getD (i % ruleTemplates.length) ([], []))
          (ph.getD i []),
        confidence := 70 - 10 * (i : Int),
        method := .rule_based } :: ruleLoop ph (ph.getD i [] :: used) rest
    else ruleLoop ph used rest

/-- `TitleGenerator._rule_based_titles`. `num_titles` is an `Int` because the
HTTP layer performs no lower clamp; `range` of a negative bound is empty. -/
def ruleBasedTitles (content : List Char) (numTitles : Int) : List Candidate :=
  let ph := keyPhrasesOf (wordsOf content)
  ruleLoop ph [] (List.range (min numTitles (ph.length : Int)).toNat)

/-! ## `TitleGenerator._create_smart_fallback_title` (utils.py lines 219-247) -/

/-- Line 226: the stopword set of the smart fallback. -/
def smartStops : List (List Char) :=
  ["this".data, "that".data, "with".data, "have".data, "been".data,
    "will".data, "from".data, "they".data, "were".data, "said".data,
    "each".data, "which".data, "their".data, "would".data, "there".data,
    "could".data, "other".data]

/-- Lines 224-227: title-cased important words among the first 20 words. -/
def importantWordsOf (ws : List (List Char)) : List (List Char) :=
  ((ws.take 20).filter fun w =>
      decide (4 < w.length ∧ lowerStr w ∉ smartStops)).map pyTitle

/-- Lines 229-235: the five fallback patterns, as prefixes of
`' '.join(important_words[:2])`. -/
def smartPrefixes : List (List Char) :=
  ["Insights on ".data, "Understanding ".data, "A Deep Dive into ".data,
    "The Impact of ".data, "Exploring ".data]

/-- `TitleGenerator._create_smart_fallback_title`. -/
def smartFallback (content : List Char) (index : Nat) : Candidate :=
  let important := importantWordsOf (wordsOf content)
  let w12 := joinSp (important.take 2)
  { title :=
      if important = [] then ("Blog Post #".data ++ natStr (index + 1))
      else smartPrefixes.getD (index % smartPrefixes.length) [] ++ w12,
    confidence := 60,
    method := .smart_fallback }

/-! ## `TitleGenerator._fallback_titles` (utils.py lines 249-268) -/

/-- Lines 251-257: the fixed basic titles. -/
def basicTitles : List (List Char) :=
  ["New Blog Post".data, "Latest Article".data, "Fresh Content".data,
    "Recent Update".data, "New Insights".data]

/-- `TitleGenerator._fallback_titles`; the `content` argument is unused by
the source as well. -/
def fallbackTitles (content : List Char) (numTitles : Int) : List Candidate :=
  (List.range numTitles.toNat).map fun i =>
    { title := basicTitles.getD (i % basicTitles.length) [] ++
        (if basicTitles.length ≤ i then (" #".data ++ natStr (i + 1)) else []),
      confidence := 40,
      method := .basic_fallback }

/-! ## `TitleGenerator.generate_titles` (utils.py lines 70-134) -/

/-- The external model (`self.summarizer`): for attempt `i` it yields either
the raw `summary_text` or `none` (the attempt raised, or returned an
empty/absent result — both land in the same skip). -/
def Oracle := Nat → Option (List Char)

/-- The AI attempt confidence of line 111, `max(0.9 - 0.1*i, 0.6)`. -/
def aiConf (i : Nat) : Int := max (90 - 10 * (i : Int)) 60

/-- Lines 86-120: the AI attempt loop over the indices `is`, accumulating
accepted candidates in order. -/
def aiLoop (oracle : Oracle) : List Nat → List Candidate → List Candidate
  | [], acc => acc
  | i :: rest, acc =>
    match oracle i with
    | none => aiLoop oracle rest acc
    | some raw =>
      let t := cleanTitle (stripWS raw)
      if t ≠ [] ∧ 3 ≤ (wordsOf t).length ∧ t ∉ acc.map Candidate.title then
        aiLoop oracle rest
          (acc ++ [{ title := t, confidence := aiConf i, method := .ai }])
      else aiLoop oracle rest acc

/-- Line 125 compares the *dict* `fallback` with the *strings*
`[t['title'] for t in titles]`; a Python `==` between a dict and a str is
always `False`, so the membership test never succeeds. -/
def pyDictEqStr (_ : Candidate) (_ : List Char) : Bool := false

/-- Lines 123-128: the while-loop topping the list up with smart-fallback
candidates; `fuel` bounds the iterations (each one grows the list). The
`break` arm is the dead branch guarded by the dict-vs-str membership. -/
def topUp (content : List Char) (n : Int) : Nat → List Candidate → List Candidate
  | 0, acc => acc
  | fuel + 1, acc =>
    if (acc.length : Int) < n then
      let fb := smartFallback content acc.length
      if (acc.map Candidate.title).any (pyDictEqStr fb) then acc
      else topUp content n fuel (acc ++ [fb])
    else acc

/-- Python `titles[:n]` for an `int` `n` (negative `n` counts from the end). -/
def pySlice (n : Int) (l : List Candidate) : List Candidate :=
  if 0 ≤ n then l.take n.toNat else l.take ((l.length : Int) + n).toNat

/-- `TitleGenerator.generate_titles`. `avail` is whether `self.summarizer`
is non-`None`. The pure embedding cannot raise, so the outer `except` of
lines 132-134 (whose handler is `_fallback_titles` on the raw content) is
unreachable here; it is modelled separately by `generateOnError`. -/
def generateTitles (oracle : Oracle) (avail : Bool) (content : List Char)
    (numTitles : Int) : List Candidate :=
  if (wordsOf (cleanContent content)).length < 10 then
    fallbackTitles (cleanContent content) numTitles
  else if avail = false then ruleBasedTitles (cleanContent content) numTitles
  else
    pySlice numTitles
      (topUp (cleanContent content) numTitles numTitles.toNat
        (aiLoop oracle (List.range (min numTitles 5).toNat) []))

/-- Lines 132-134: the outer exception handler falls back to
`_fallback_titles` on the original, uncleaned content. -/
def generateOnError (content : List Char) (numTitles : Int) : List Candidate :=
  fallbackTitles content numTitles

/-! ## `SuggestTitlesView.post` (views.py lines 15-65) -/

/-- The `max_suggestions` field of the request body: absent, an
integer-coercible value, or a value on which `int()` raises. -/
inductive MaxSugg where
  | absent
  | val (n : Int)
  | invalid
deriving DecidableEq

/-- Line 22, `int(request.data.get('max_suggestions', 3))`: default 3 when
absent, exception when not coercible. -/
def pyIntOfMaxSugg : MaxSugg → Except Unit Int
  | .absent => .ok 3
  | .val n => .ok n
  | .invalid => .error ()

/-- The three response shapes of `SuggestTitlesView.post`. -/
inductive PostResponse where
  | badRequest (error : List Char)
  | ok (suggestions : List Candidate)
  | serverError
deriving DecidableEq

/-- A `post` outcome together with the `num_titles` value the engine was
invoked with, if it was invoked. -/
structure PostOutcome where
  response : PostResponse
  engineCall : Option Int
deriving DecidableEq

/-- `SuggestTitlesView.post`: strip the content (line 21), coerce and clamp
`max_suggestions` with `min(int(...), 5)` (line 22; an `int()` exception is
caught by the outer handler and becomes the 500 response), then the three
content validations (lines 25-41), then the engine call (line 45). -/
def post (oracle : Oracle) (avail : Bool) (rawContent : List Char)
    (ms : MaxSugg) : PostOutcome :=
  let content := stripWS rawContent
  match pyIntOfMaxSugg ms with
  | .error _ => { response := .serverError, engineCall := none }
  | .ok v =>
    let maxS := min v 5
    if content = [] then
      { response := .badRequest ("Content is required".data), engineCall := none }
    else if content.length < 20 then
      { response := .badRequest ("Content too short (minimum 20 characters)".data),
        engineCall := none }
    else if 5000 < content.length then
      { response := .badRequest ("Content too long (maximum 5000 characters)".data),
        engineCall := none }
    else
      { response := .ok (generateTitles oracle avail content maxS),
        engineCall := some maxS }

/-! ## Concrete inputs used by the claim theorems -/

/-- 801 copies of `a`: its cleaned form is unchanged, longer than 800, and
its first `.`-segment alone exceeds 800 characters. -/
def aRun801 : List Char := List.replicate 801 'a'

/-- 800 copies of `a`, then `.bb`: the sentence loop keeps the 800-character
first sentence and re-appends the dot, reaching 801 characters. -/
def aDotBB : List Char := List.replicate 800 'a' ++ ".bb".data

/-- Ten one-character words: cleaned word count is 10, yet every two-word
window has rendered length 3 ≤ 6, so the rule-based tier has no key phrase. -/
def tenShortWords : List Char := "a b c d e f g h i j".data

/-- Ten words whose first important words are `Cloud Computing`. -/
def cloudContent : List Char :=
  "cloud computing platforms enable modern scalable digital services everywhere today".data

/-- An oracle whose first attempt yields a string that formats exactly to
the smart-fallback pattern `Understanding Cloud Computing` of `cloudContent`
and whose later attempts all fail. -/
def cloudOracle : Oracle := fun i =>
  if i = 0 then some ("understanding cloud computing".data) else none

/-- Ten distinct five-plus-character words: each of the nine two-word
windows is a distinct qualifying key phrase, and the first two important
words are `Alpha Bravo`. -/
def natoContent : List Char :=
  "alpha bravo charlie delta echoes foxtrot golfer hotel india juliet".data

/-- An oracle with four successful, pairwise distinct, three-plus-word
attempts and a failing fifth attempt. -/
def natoOracle : Oracle := fun i =>
  if i = 0 then some ("alpha bravo charlie news".data)
  else if i = 1 then some ("delta echoes foxtrot news".data)
  else if i = 2 then some ("golfer hotel india news".data)
  else if i = 3 then some ("second third fourth news".data)
  else none

/-- An oracle that always fails. -/
def noneOracle : Oracle := fun _ => none

/-- A valid request body content of length 30. -/
def okContent : List Char := "abcdefghij abcdefghij abcdefgh".data

/-- The spec's worked formatter example input. -/
def saasInput : List Char := "the ai guide to saas".data

/-- What the code actually produces for `saasInput`. -/
def saasActual : List Char := "The AI Guide to Saas".data

/-- What the claim says the formatter produces for `saasInput`. -/
def saasClaimed : List Char := "The AI Guide to SaaS".data

/-- A dot, a space and a dot: the smallest input on which the formatter is
not idempotent. -/
def dotSpaceDot : List Char := ". .".data

/-- A plain title on which to witness the formatter's idempotence. -/
def plainTitle : List Char := "hello brave new world".data

/-! ## Structural lemmas about the word and sentence splitters

These avoid evaluating the splitters on 800-character inputs and also serve
the idempotence analysis of the title formatter. -/

theorem wordsAux_wsFree (l : List Char) (h : ∀ c ∈ l, isWS c = false) :
    ∀ cur, wordsAux l cur =
      if cur.reverse ++ l = [] then [] else [cur.reverse ++ l] := by
  induction l with
  | nil =>
    intro cur
    cases cur with
    | nil => rfl
    | cons d ds => simp [wordsAux]
  | cons c cs ih =>
    intro cur
    have hc : isWS c = false := h c (by simp)
    have hcs : ∀ x ∈ cs, isWS x = false := fun x hx => h x (by simp [hx])
    rw [wordsAux, hc]
    simp only [Bool.false_eq_true, if_false]
    rw [ih hcs (c :: cur)]
    have h1 : (c :: cur).reverse ++ cs = cur.reverse ++ c :: cs := by
      simp
    rw [h1]

theorem wordsOf_wsFree (l : List Char) (hne : l ≠ [])
    (h : ∀ c ∈ l, isWS c = false) : wordsOf l = [l] := by
  rw [wordsOf, wordsAux_wsFree l h []]
  simp [hne]

theorem splitDot_no_dot (l : List Char) (h : ∀ c ∈ l, ¬ c = '.') :
    splitDot l = [l] := by
  induction l with
  | nil => rfl
  | cons c cs ih =>
    have hc : ¬ c = '.' := h c (by simp)
    have hcs : ∀ x ∈ cs, ¬ x = '.' := fun x hx => h x (by simp [hx])
    rw [splitDot, if_neg hc, ih hcs]

theorem splitDot_append_dot (l r : List Char) (h : ∀ c ∈ l, ¬ c = '.') :
    splitDot (l ++ '.' :: r) = l :: splitDot r := by
  induction l with
  | nil =>
    rw [List.nil_append, splitDot, if_pos rfl]
  | cons c cs ih =>
    have hc : ¬ c = '.' := h c (by simp)
    have hcs : ∀ x ∈ cs, ¬ x = '.' := fun x hx => h x (by simp [hx])
    rw [List.cons_append, splitDot, if_neg hc, ih hcs]

theorem joinSp_single (w : List Char) : joinSp [w] = w := rfl

theorem cleanContent_aRun801 : cleanContent aRun801 = "...".data := by
  have hlen : aRun801.length = 801 := by
    rw [aRun801, List.length_replicate]
  have hne : aRun801 ≠ [] := by
    intro h
    have h2 : aRun801.length = 0 := by rw [h]; rfl
    rw [hlen] at h2
    exact absurd h2 (by norm_num)
  have hmem : ∀ c ∈ aRun801, c = 'a' := by
    intro c hc
    exact List.eq_of_mem_replicate hc
  have hws : ∀ c ∈ aRun801, isWS c = false := by
    intro c hc
    rw [hmem c hc]
    decide
  have hquotes : mapQuotes aRun801 = aRun801 := by
    rw [aRun801, mapQuotes, List.map_replicate]
    rfl
  have hwords : wordsOf aRun801 = [aRun801] := wordsOf_wsFree _ hne hws
  have hfilter : aRun801.filter keepChar = aRun801 := by
    rw [List.filter_eq_self]
    intro c hc
    rw [hmem c hc]
    decide
  have hdots : splitDot aRun801 = [aRun801] := by
    apply splitDot_no_dot
    intro c hc
    rw [hmem c hc]
    decide
  have hre : reassemble [] [aRun801] = [] := by
    rw [reassemble, if_pos (by rw [List.nil_append, hlen]; norm_num)]
  rw [cleanContent, if_neg hne, hquotes, collapseWS, hwords, joinSp_single,
    hfilter, truncate800, if_pos (by rw [hlen]; norm_num), hdots, hre,
    if_pos rfl]
  rfl

theorem cleanContent_aDotBB_length : (cleanContent aDotBB).length = 801 := by
  have ha : ∀ c ∈ (List.replicate 800 'a' : List Char), c = 'a' := by
    intro c hc
    exact List.eq_of_mem_replicate hc
  have hbb : (".bb".data : List Char) = ['.', 'b', 'b'] := rfl
  have hmem : ∀ c ∈ aDotBB, c = 'a' ∨ c = '.' ∨ c = 'b' := by
    intro c hc
    rw [aDotBB, List.mem_append] at hc
    rcases hc with hc | hc
    · exact Or.inl (ha c hc)
    · rw [hbb] at hc
      simp only [List.mem_cons, List.not_mem_nil, or_false] at hc
      rcases hc with hc | hc | hc
      · exact Or.inr (Or.inl hc)
      · exact Or.inr (Or.inr hc)
      · exact Or.inr (Or.inr hc)
  have hlen : aDotBB.length = 803 := by
    rw [aDotBB, List.length_append, List.length_replicate]
    rfl
  have hne : aDotBB ≠ [] := by
    intro h
    have h2 : aDotBB.length = 0 := by rw [h]; rfl
    rw [hlen] at h2
    exact absurd h2 (by norm_num)
  have hws : ∀ c ∈ aDotBB, isWS c = false := by
    intro c hc
    rcases hmem c hc with h | h | h <;> rw [h] <;> decide
  have hquotes : mapQuotes aDotBB = aDotBB := by
    rw [aDotBB, mapQuotes, List.map_append, List.map_replicate]
    rfl
  have hwords : wordsOf aDotBB = [aDotBB] := wordsOf_wsFree _ hne hws
  have hfilter : aDotBB.filter keepChar = aDotBB := by
    rw [List.filter_eq_self]
    intro c hc
    rcases hmem c hc with h | h | h <;> rw [h] <;> decide
  have hdots : splitDot aDotBB = [List.replicate 800 'a', "bb".data] := by
    have hsplit : aDotBB = List.replicate 800 'a' ++ '.' :: "bb".data := by
      rw [aDotBB]
    rw [hsplit, splitDot_append_dot]
    · rw [splitDot_no_dot]
      decide
    · intro c hc
      rw [ha c hc]
      decide
  have hlen2 : (List.replicate 800 'a' ++ ['.'] : List Char).length = 801 := by
    rw [List.length_append, List.length_replicate]
    rfl
  have hstep : reassemble [] [List.replicate 800 'a', "bb".data] =
      List.replicate 800 'a' ++ ['.'] := by
    rw [reassemble,
      if_neg (by rw [List.nil_append, List.length_replicate]; norm_num),
      reassemble, List.nil_append,
      if_pos (by
        rw [List.length_append, List.length_append, List.length_replicate]
        norm_num)]
  have hne2 : (List.replicate 800 'a' ++ ['.'] : List Char) ≠ [] := by
    intro h
    have h2 : (List.replicate 800 'a' ++ ['.'] : List Char).length = 0 := by
      rw [h]; rfl
    rw [hlen2] at h2
    exact absurd h2 (by norm_num)
  rw [cleanContent, if_neg hne, hquotes, collapseWS, hwords, joinSp_single,
    hfilter, truncate800, if_pos (by rw [hlen]; norm_num), hdots, hstep,
    if_neg hne2, hlen2]

/-! ## Length bounds for `clean_content` -/

theorem reassemble_length_le (ss : List (List Char)) :
    ∀ acc : List Char, acc.length ≤ 801 → (reassemble acc ss).length ≤ 801 := by
  induction ss with
  | nil =>
    intro acc h
    exact h
  | cons s rest ih =>
    intro acc h
    rw [reassemble]
    split
    · exact h
    · apply ih
      rename_i hle
      rw [List.append_assoc, List.length_append]
      rw [not_lt, List.length_append] at hle
      simp only [List.length_append, List.length_cons, List.length_nil]
      omega

theorem truncate800_length_le (l : List Char) : (truncate800 l).length ≤ 801 := by
  rw [truncate800]
  split
  · split
    · rename_i hc
      rw [hc]
      decide
    · exact reassemble_length_le _ [] (by decide)
  · rename_i h
    rw [not_lt] at h
    omega

theorem cleanContent_length_le (content : List Char) :
    (cleanContent content).length ≤ 801 := by
  rw [cleanContent]
  split
  · decide
  · exact truncate800_length_le _

/-! ## Length bounds for the generation tiers -/

theorem fallbackTitles_length (content : List Char) (n : Int) :
    (fallbackTitles content n).length = n.toNat := by
  rw [fallbackTitles, List.length_map, List.length_range]

theorem ruleLoop_length_le (ph : List (List Char)) :
    ∀ (is : List Nat) (used : List (List Char)),
      (ruleLoop ph used is).length ≤ is.length := by
  intro is
  induction is with
  | nil =>
    intro used
    exact Nat.le_refl _
  | cons i rest ih =>
    intro used
    rw [ruleLoop]
    split
    · simpa using Nat.succ_le_succ (ih _)
    · exact Nat.le_trans (ih _) (by simp)

theorem ruleBasedTitles_length_le (content : List Char) (n : Int) :
    (ruleBasedTitles content n).length ≤ n.toNat := by
  rw [ruleBasedTitles]
  refine Nat.le_trans (ruleLoop_length_le _ _ _) ?_
  rw [List.length_range]
  omega

theorem pySlice_length_le (n : Int) (h : 0 ≤ n) (l : List Candidate) :
    (pySlice n l).length ≤ n.toNat := by
  rw [pySlice, if_pos h, List.length_take]
  omega

/-! ## Claim C5: response length bounds -/

/-- C5 (confirmed). For every oracle, model availability, content and
`num_titles` in `[1,5]`, `generate_titles` returns at most `num_titles`
candidates and never more than 5; the outer-exception fallback
(`_fallback_titles` on the raw content) obeys the same bounds. -/
theorem c5_length_le_num_titles (oracle : Oracle) (avail : Bool)
    (content : List Char) (n : Int) (h1 : 1 ≤ n) (h5 : n ≤ 5) :
    ((generateTitles oracle avail content n).length ≤ n.toNat ∧
      (generateTitles oracle avail content n).length ≤ 5) ∧
      (generateOnError content n).length ≤ n.toNat ∧
      (generateOnError content n).length ≤ 5 := by
  have key : (generateTitles oracle avail content n).length ≤ n.toNat := by
    rw [generateTitles]
    split
    · rw [fallbackTitles_length]
    · split
      · exact ruleBasedTitles_length_le _ _
      · exact pySlice_length_le _ (by omega) _
  have kerr : (generateOnError content n).length ≤ n.toNat := by
    rw [generateOnError, fallbackTitles_length]
  exact ⟨⟨key, Nat.le_trans key (by omega)⟩, kerr, Nat.le_trans kerr (by omega)⟩

/-- Witness for C5 at a concrete request. -/
theorem c5_length_le_num_titles_witness :
    (1 : Int) ≤ 3 ∧ (3 : Int) ≤ 5 ∧
      (((generateTitles natoOracle true natoContent 3).length ≤ (3 : Int).toNat ∧
        (generateTitles natoOracle true natoContent 3).length ≤ 5) ∧
        (generateOnError natoContent 3).length ≤ (3 : Int).toNat ∧
        (generateOnError natoContent 3).length ≤ 5) :=
  ⟨by norm_num, by norm_num,
    c5_length_le_num_titles natoOracle true natoContent 3 (by norm_num) (by norm_num)⟩

/-! ## Claim C3: model unavailable, word count at least 10 -/

/-- C3 (corrected). When the model handle is unavailable and the cleaned
word count is at least 10, `generate_titles` returns the rule-based tier's
list *directly* — no smart-fallback top-up step runs afterwards, so a
shortfall is returned as-is. -/
theorem c3_rule_based_returned_directly (oracle : Oracle) (content : List Char)
    (n : Int) (h : 10 ≤ (wordsOf (cleanContent content)).length) :
    generateTitles oracle false content n =
      ruleBasedTitles (cleanContent content) n := by
  rw [generateTitles, if_neg (by omega), if_pos rfl]

/-- Counterexample to C3 as stated: ten one-character words give a cleaned
word count of 10 and an empty key-phrase list, and the returned list is
empty — the claimed smart-fallback top-up (which would fill it to 3
candidates) never runs. -/
theorem c3_counterexample_no_smart_topup :
    10 ≤ (wordsOf (cleanContent tenShortWords)).length ∧
      generateTitles noneOracle false tenShortWords 3 = [] :=
  ⟨by decide, by decide⟩

/-- Witness for C3's amended statement at a concrete input. -/
theorem c3_rule_based_returned_directly_witness :
    10 ≤ (wordsOf (cleanContent natoContent)).length ∧
      generateTitles noneOracle false natoContent 3 =
        ruleBasedTitles (cleanContent natoContent) 3 :=
  ⟨by decide, c3_rule_based_returned_directly noneOracle natoContent 3 (by decide)⟩

/-! ## Claim C4: `max_suggestions` handling in the view -/

/-- C4 (corrected). The view only clamps `max_suggestions` from above
(`min(int(...), 5)`): whenever the engine is invoked it receives a value at
most 5, equal to 3 exactly when the field is absent; a non-coercible value
raises inside the handler, producing the 500 response and no engine call —
there is no lower clamp and no default-on-invalid. -/
theorem c4_upper_clamp_only (oracle : Oracle) (avail : Bool) (raw : List Char)
    (ms : MaxSugg) :
    (∀ m : Int, (post oracle avail raw ms).engineCall = some m →
        m ≤ 5 ∧ (ms = .absent → m = 3)) ∧
      (ms = .invalid → (post oracle avail raw ms).engineCall = none ∧
        (post oracle avail raw ms).response = .serverError) := by
  cases ms with
  | absent =>
    refine ⟨?_, fun h => absurd h (by simp)⟩
    intro m hm
    simp only [post, pyIntOfMaxSugg] at hm
    split_ifs at hm <;> simp_all
    omega
  | val v =>
    refine ⟨?_, fun h => absurd h (by simp)⟩
    intro m hm
    simp only [post, pyIntOfMaxSugg] at hm
    split_ifs at hm <;> simp_all
    omega
  | invalid =>
    have hpost : post oracle avail raw .invalid =
        { response := .serverError, engineCall := none } := rfl
    refine ⟨?_, fun _ => ⟨by rw [hpost], by rw [hpost]⟩⟩
    intro m hm
    rw [hpost] at hm
    exact absurd hm (by simp)

/-- Counterexample to C4 as stated: a request with valid content and
`max_suggestions = 0` invokes the engine with 0, below the claimed lower
clamp of 1. -/
theorem c4_counterexample_zero_reaches_engine :
    (post noneOracle false okContent (.val 0)).engineCall = some 0 ∧
      ¬ (1 : Int) ≤ 0 :=
  ⟨by decide, by decide⟩

/-- Witness for C4's amended statement: an invalid `max_suggestions` yields
the 500 response and no engine invocation. -/
theorem c4_upper_clamp_only_witness :
    (post noneOracle false okContent .invalid).engineCall = none ∧
      (post noneOracle false okContent .invalid).response = .serverError :=
  (c4_upper_clamp_only noneOracle false okContent .invalid).2 rfl

/-! ## Claim C8: structure of the rule-based tier -/

theorem ruleLoop_map_of_nodup (ph : List (List Char)) :
    ∀ (is : List Nat) (used : List (List Char)),
      (∀ i ∈ is, i < ph.length) →
      (∀ i ∈ is, ph.getD i [] ∉ used) →
      (∀ i ∈ is, ∀ j ∈ is, i ≠ j → ph.getD i [] ≠ ph.getD j []) →
      List.Pairwise (fun a b => a ≠ b) is →
      ruleLoop ph used is = is.map fun i =>
        { title := fillTemplate
            (ruleTemplates.getD (i % ruleTemplates.length) ([], []))
            (ph.getD i []),
          confidence := 70 - 10 * (i : Int),
          method := GenMethod.rule_based } := by
  intro is
  induction is with
  | nil =>
    intro used _ _ _ _
    rfl
  | cons i rest ih =>
    intro used hlt hnu hinj hpw
    rw [ruleLoop, if_pos ⟨hlt i (by simp), hnu i (by simp)⟩, List.map_cons]
    congr 1
    apply ih
    · intro j hj
      exact hlt j (by simp [hj])
    · intro j hj
      rw [List.mem_cons, not_or]
      refine ⟨?_, hnu j (by simp [hj])⟩
      exact hinj j (by simp [hj]) i (by simp)
        fun hji => (List.rel_of_pairwise_cons hpw hj) hji.symm
    · intro a ha b hb hab
      exact hinj a (by simp [ha]) b (by simp [hb]) hab
    · exact hpw.of_cons

/-- C8 (corrected). In the rule-based tier, when the qualifying key phrases
are pairwise distinct, the candidate at position `i` pairs the `i`-th
template (cycled modulo the template count) with the `i`-th key phrase —
but its confidence is the raw `0.7 - 0.1*i`, with no floor at 0 (negative
from `i = 8` on). -/
theorem c8_rule_based_structure_amended (content : List Char) (n : Int)
    (hnd : (keyPhrasesOf (wordsOf content)).Nodup) (i : Nat)
    (hi : i < (min n (((keyPhrasesOf (wordsOf content)).length : Nat) : Int)).toNat) :
    (ruleBasedTitles content n)[i]? = some
      { title := fillTemplate
          (ruleTemplates.getD (i % ruleTemplates.length) ([], []))
          ((keyPhrasesOf (wordsOf content)).getD i []),
        confidence := 70 - 10 * (i : Int),
        method := GenMethod.rule_based } := by
  have hk : (min n (((keyPhrasesOf (wordsOf content)).length : Nat) : Int)).toNat ≤
      (keyPhrasesOf (wordsOf content)).length := by
    rw [Int.toNat_le]
    exact min_le_right _ _
  rw [ruleBasedTitles, ruleLoop_map_of_nodup]
  · rw [List.getElem?_map, List.getElem?_range hi]
    rfl
  · intro j hj
    rw [List.mem_range] at hj
    omega
  · intro j _
    exact List.not_mem_nil _
  · intro a ha b hb hab
    rw [List.mem_range] at ha hb
    have ha' : a < (keyPhrasesOf (wordsOf content)).length := by omega
    have hb' : b < (keyPhrasesOf (wordsOf content)).length := by omega
    rw [List.getD_eq_getElem?_getD, List.getD_eq_getElem?_getD,
      List.getElem?_eq_getElem ha', List.getElem?_eq_getElem hb']
    simp only [Option.getD_some]
    intro h
    exact hab (hnd.getElem_inj_iff.mp h)
  · exact (List.pairwise_lt_range _).imp fun h => Nat.ne_of_lt h

/-- Counterexample to C8 as stated: with nine qualifying key phrases and
`num_titles = 9`, the ninth rule-based candidate has confidence
`0.7 - 0.1*8 = -0.1`, not the claimed `max(0.7 - 0.1*8, 0) = 0`. -/
theorem c8_counterexample_negative_confidence :
    (ruleBasedTitles (cleanContent natoContent) 9).map Candidate.confidence =
        [70, 60, 50, 40, 30, 20, 10, 0, -10] ∧
      ((ruleBasedTitles (cleanContent natoContent) 9).map
          Candidate.confidence)[8]? ≠ some (max (70 - 10 * (8 : Int)) 0) :=
  ⟨by decide, by decide⟩

/-- Witness for C8's amended statement at the ninth candidate of a concrete
content. -/
theorem c8_rule_based_structure_amended_witness :
    (keyPhrasesOf (wordsOf (cleanContent natoContent))).Nodup ∧
      8 < (min 9 (((keyPhrasesOf (wordsOf (cleanContent natoContent))).length :
          Nat) : Int)).toNat ∧
      (ruleBasedTitles (cleanContent natoContent) 9)[8]? = some
        { title := fillTemplate
            (ruleTemplates.getD (8 % ruleTemplates.length) ([], []))
            ((keyPhrasesOf (wordsOf (cleanContent natoContent))).getD 8 []),
          confidence := 70 - 10 * (8 : Int),
          method := GenMethod.rule_based } :=
  ⟨by decide, by decide,
    c8_rule_based_structure_amended (cleanContent natoContent) 9 (by decide) 8
      (by decide)⟩

/-! ## Claim C7: confidence ordering -/

theorem aiConf_antitone {i j : Nat} (h : i ≤ j) : aiConf j ≤ aiConf i := by
  unfold aiConf
  exact max_le_max (by omega) le_rfl

theorem aiConf_ge_60 (i : Nat) : 60 ≤ aiConf i := le_max_right _ _

theorem fallbackTitles_mem (content : List Char) (n : Int) :
    ∀ c ∈ fallbackTitles content n,
      c.method = GenMethod.basic_fallback ∧ c.confidence = 40 := by
  intro c hc
  rw [fallbackTitles] at hc
  rcases List.mem_map.mp hc with ⟨i, _, rfl⟩
  exact ⟨rfl, rfl⟩

theorem fallbackTitles_pairwise (content : List Char) (n : Int) :
    (fallbackTitles content n).Pairwise
      (fun a b => b.confidence ≤ a.confidence) := by
  rw [fallbackTitles, List.pairwise_map]
  exact (List.pairwise_lt_range _).imp fun _ => le_rfl

theorem ruleLoop_mem (ph : List (List Char)) :
    ∀ (is : List Nat) (used : List (List Char)),
      ∀ c ∈ ruleLoop ph used is,
        c.method = GenMethod.rule_based ∧
          ∃ i ∈ is, c.confidence = 70 - 10 * (i : Int) := by
  intro is
  induction is with
  | nil =>
    intro used c hc
    exact absurd hc (List.not_mem_nil c)
  | cons i rest ih =>
    intro used c hc
    rw [ruleLoop] at hc
    split at hc
    · rcases List.mem_cons.mp hc with rfl | hc
      · exact ⟨rfl, i, by simp, rfl⟩
      · rcases ih _ c hc with ⟨hm, j, hj, hconf⟩
        exact ⟨hm, j, by simp [hj], hconf⟩
    · rcases ih _ c hc with ⟨hm, j, hj, hconf⟩
      exact ⟨hm, j, by simp [hj], hconf⟩

theorem ruleLoop_pairwise (ph : List (List Char)) :
    ∀ (is : List Nat) (used : List (List Char)),
      List.Pairwise (fun a b => a < b) is →
      (ruleLoop ph used is).Pairwise
        (fun a b => b.confidence ≤ a.confidence) := by
  intro is
  induction is with
  | nil =>
    intro used _
    exact List.Pairwise.nil
  | cons i rest ih =>
    intro used hpw
    rw [ruleLoop]
    split
    · refine List.pairwise_cons.mpr ⟨?_, ih _ hpw.of_cons⟩
      intro c hc
      rcases (ruleLoop_mem ph rest _ c hc).2 with ⟨j, hj, hconf⟩
      have hij : i < j := List.rel_of_pairwise_cons hpw hj
      rw [hconf]
      show (70 : Int) - 10 * (j : Int) ≤ 70 - 10 * (i : Int)
      omega
    · exact ih _ hpw.of_cons

theorem aiLoop_inv (oracle : Oracle) :
    ∀ (is : List Nat) (acc : List Candidate),
      List.Pairwise (fun a b => a < b) is →
      acc.Pairwise (fun a b => b.confidence ≤ a.confidence) →
      (∀ c ∈ acc, c.method = GenMethod.ai ∧ 60 ≤ c.confidence) →
      (∀ c ∈ acc, ∀ i ∈ is, aiConf i ≤ c.confidence) →
      (aiLoop oracle is acc).Pairwise
          (fun a b => b.confidence ≤ a.confidence) ∧
        ∀ c ∈ aiLoop oracle is acc,
          c.method = GenMethod.ai ∧ 60 ≤ c.confidence := by
  intro is
  induction is with
  | nil =>
    intro acc _ hpw hmem _
    exact ⟨hpw, hmem⟩
  | cons i rest ih =>
    intro acc his hpw hmem hbound
    cases h : oracle i with
    | none =>
      rw [aiLoop, h]
      exact ih acc his.of_cons hpw hmem
        fun c hc j hj => hbound c hc j (by simp [hj])
    | some raw =>
      simp only [aiLoop, h]
      split
      · apply ih _ his.of_cons
        · rw [List.pairwise_append]
          refine ⟨hpw, by simp, ?_⟩
          intro a ha b hb
          rw [List.mem_singleton.mp hb]
          exact hbound a ha i (by simp)
        · intro c hc
          rcases List.mem_append.mp hc with hc | hc
          · exact hmem c hc
          · rw [List.mem_singleton.mp hc]
            exact ⟨rfl, aiConf_ge_60 i⟩
        · intro c hc j hj
          rcases List.mem_append.mp hc with hc | hc
          · exact hbound c hc j (by simp [hj])
          · rw [List.mem_singleton.mp hc]
            show aiConf j ≤ aiConf i
            exact aiConf_antitone
              (Nat.le_of_lt (List.rel_of_pairwise_cons his hj))
      · exact ih acc his.of_cons hpw hmem
          fun c hc j hj => hbound c hc j (by simp [hj])

theorem topUp_inv (content : List Char) (n : Int) :
    ∀ (fuel : Nat) (acc : List Candidate),
      acc.Pairwise (fun a b => b.confidence ≤ a.confidence) →
      (∀ c ∈ acc,
        (c.method = GenMethod.ai ∧ 60 ≤ c.confidence) ∨
          (c.method = GenMethod.smart_fallback ∧ c.confidence = 60)) →
      (topUp content n fuel acc).Pairwise
          (fun a b => b.confidence ≤ a.confidence) ∧
        ∀ c ∈ topUp content n fuel acc,
          (c.method = GenMethod.ai ∧ 60 ≤ c.confidence) ∨
            (c.method = GenMethod.smart_fallback ∧ c.confidence = 60) := by
  intro fuel
  induction fuel with
  | zero =>
    intro acc hpw hmem
    exact ⟨hpw, hmem⟩
  | succ fuel ih =>
    intro acc hpw hmem
    rw [topUp]
    split
    · have hany : ((acc.map Candidate.title).any
          (pyDictEqStr (smartFallback content acc.length))) = false := by
        rw [List.any_eq_false]
        intro s _
        rw [pyDictEqStr]
        exact Bool.false_ne_true
      simp only [hany, Bool.false_eq_true, if_false]
      apply ih
      · rw [List.pairwise_append]
        refine ⟨hpw, by simp, ?_⟩
        intro a ha b hb
        rw [List.mem_singleton.mp hb]
        show (smartFallback content acc.length).confidence ≤ a.confidence
        rcases hmem a ha with ⟨_, h⟩ | ⟨_, h⟩
        · exact le_trans (by rw [smartFallback]) h
        · rw [h, smartFallback]
      · intro c hc
        rcases List.mem_append.mp hc with hc | hc
        · exact hmem c hc
        · rw [List.mem_singleton.mp hc]
          exact Or.inr ⟨rfl, rfl⟩
    · exact ⟨hpw, hmem⟩

/-- C7 (corrected). In every response: confidences are non-increasing in
list order (hence within the AI phase in attempt order); AI candidates have
confidence at least 0.6 while smart-fallback candidates have exactly 0.6
(so AI ≥ smart-fallback, not strictly greater); basic-fallback candidates
have exactly 0.4; and whenever two candidates of different tiers co-occur,
the higher-tier one has confidence greater *or equal*. -/
theorem c7_confidence_order_amended (oracle : Oracle) (avail : Bool)
    (content : List Char) (n : Int) :
    (generateTitles oracle avail content n).Pairwise
        (fun a b => b.confidence ≤ a.confidence) ∧
      (∀ c ∈ generateTitles oracle avail content n,
        c.method = GenMethod.ai → 60 ≤ c.confidence) ∧
      (∀ c ∈ generateTitles oracle avail content n,
        c.method = GenMethod.smart_fallback → c.confidence = 60) ∧
      (∀ c ∈ generateTitles oracle avail content n,
        c.method = GenMethod.basic_fallback → c.confidence = 40) ∧
      (∀ c1 ∈ generateTitles oracle avail content n,
        ∀ c2 ∈ generateTitles oracle avail content n,
          tierRank c1.method < tierRank c2.method →
            c2.confidence ≤ c1.confidence) := by
  rw [generateTitles]
  split
  · -- basic fallback path
    refine ⟨fallbackTitles_pairwise _ _, ?_, ?_, ?_, ?_⟩
    · intro c hc hai
      rw [(fallbackTitles_mem _ _ c hc).1] at hai
      exact absurd hai (by decide)
    · intro c hc hsf
      rw [(fallbackTitles_mem _ _ c hc).1] at hsf
      exact absurd hsf (by decide)
    · intro c hc _
      exact (fallbackTitles_mem _ _ c hc).2
    · intro c1 h1 c2 h2 hr
      rw [(fallbackTitles_mem _ _ c1 h1).1, (fallbackTitles_mem _ _ c2 h2).1]
        at hr
      exact absurd hr (by decide)
  · split
    · -- rule-based path
      refine ⟨?_, ?_, ?_, ?_, ?_⟩
      · exact ruleLoop_pairwise _ _ _ (List.pairwise_lt_range _)
      · intro c hc hai
        rw [(ruleLoop_mem _ _ _ c hc).1] at hai
        exact absurd hai (by decide)
      · intro c hc hsf
        rw [(ruleLoop_mem _ _ _ c hc).1] at hsf
        exact absurd hsf (by decide)
      · intro c hc hbf
        rw [(ruleLoop_mem _ _ _ c hc).1] at hbf
        exact absurd hbf (by decide)
      · intro c1 h1 c2 h2 hr
        rw [(ruleLoop_mem _ _ _ c1 h1).1, (ruleLoop_mem _ _ _ c2 h2).1] at hr
        exact absurd hr (by decide)
    · -- AI path with smart-fallback top-up
      have hai := aiLoop_inv oracle (List.range (min n 5).toNat) []
        (List.pairwise_lt_range _) List.Pairwise.nil (by simp) (by simp)
      have htop := topUp_inv (cleanContent content) n n.toNat _
        hai.1 fun c hc => Or.inl (hai.2 c hc)
      have hsub : (pySlice n (topUp (cleanContent content) n n.toNat
          (aiLoop oracle (List.range (min n 5).toNat) []))).Sublist
          (topUp (cleanContent content) n n.toNat
            (aiLoop oracle (List.range (min n 5).toNat) [])) := by
        rw [pySlice]
        split
        · exact List.take_sublist _ _
        · exact List.take_sublist _ _
      have hmem' : ∀ c ∈ pySlice n (topUp (cleanContent content) n n.toNat
          (aiLoop oracle (List.range (min n 5).toNat) [])),
          (c.method = GenMethod.ai ∧ 60 ≤ c.confidence) ∨
            (c.method = GenMethod.smart_fallback ∧ c.confidence = 60) :=
        fun c hc => htop.2 c (hsub.subset hc)
      refine ⟨List.Pairwise.sublist hsub htop.1, ?_, ?_, ?_, ?_⟩
      · intro c hc hai'
        rcases hmem' c hc with ⟨_, h⟩ | ⟨hm, _⟩
        · exact h
        · rw [hm] at hai'
          exact absurd hai' (by decide)
      · intro c hc hsf
        rcases hmem' c hc with ⟨hm, _⟩ | ⟨_, h⟩
        · rw [hm] at hsf
          exact absurd hsf (by decide)
        · exact h
      · intro c hc hbf
        rcases hmem' c hc with ⟨hm, _⟩ | ⟨hm, _⟩ <;> rw [hm] at hbf <;>
          exact absurd hbf (by decide)
      · intro c1 h1 c2 h2 hr
        rcases hmem' c1 h1 with ⟨hm1, hc1⟩ | ⟨hm1, hc1⟩ <;>
          rcases hmem' c2 h2 with ⟨hm2, hc2⟩ | ⟨hm2, hc2⟩ <;>
            rw [hm1, hm2] at hr
        · exact absurd hr (by decide)
        · rw [hc2]
          exact hc1
        · exact absurd hr (by decide)
        · exact absurd hr (by decide)

/-- Counterexample to C7 as stated: with four accepted AI attempts and one
failing fifth, the response holds an AI candidate with confidence 0.6 and a
smart-fallback candidate with confidence 0.6 — the cross-tier ordering is
not strict. -/
theorem c7_counterexample_equal_confidence_across_tiers :
    (generateTitles natoOracle true natoContent 5).map
        (fun c => (c.confidence, c.method)) =
      [(90, .ai), (80, .ai), (70, .ai), (60, .ai), (60, .smart_fallback)] ∧
      ¬ (60 : Int) < 60 :=
  ⟨by decide, by decide⟩

/-- Witness for C7's amended statement: its conclusions at a concrete
response. -/
theorem c7_confidence_order_amended_witness :
    (generateTitles natoOracle true natoContent 5).Pairwise
      (fun a b => b.confidence ≤ a.confidence) :=
  (c7_confidence_order_amended natoOracle true natoContent 5).1

/-! ## Claims C1, C2, C6, C10 -/

/-- C1 (code_bug). On an input whose cleaned form exceeds 800 characters and
whose first `.`-segment alone exceeds 800 characters, `clean_content`
returns just `"..."`: the loop has already overwritten `content` with the
empty string when line 66 computes `content[:800] + "..."`, so the claimed
hard truncation of the cleaned text never happens. -/
theorem c1_hard_truncate_returns_only_dots :
    cleanContent aRun801 = "...".data ∧
      cleanContent aRun801 ≠ List.take 800 aRun801 ++ "...".data := by
  refine ⟨cleanContent_aRun801, ?_⟩
  rw [cleanContent_aRun801]
  intro h
  have h2 := congrArg List.length h
  have h3 : ("...".data : List Char).length = 3 := rfl
  rw [List.length_append, List.length_take, h3, aRun801,
    List.length_replicate] at h2
  omega

/-- C2 (code_bug). The formatter renders `"the ai guide to saas"` as
`"The AI Guide to Saas"`, not the claimed `"The AI Guide to SaaS"`: the
membership test uppercases the token before comparing it with the set, so
the mixed-case entries `SaaS` and `IoT` can never match. -/
theorem c2_saas_membership_eval :
    cleanTitle saasInput = saasActual ∧ cleanTitle saasInput ≠ saasClaimed :=
  ⟨by decide, by decide⟩

/-- C6 (code_bug). A response can contain two candidates with the same
title: when an accepted AI title coincides with the smart-fallback pattern,
the top-up loop still appends it, because line 125 tests whether the
candidate *dict* is a member of a list of title *strings* — which is always
false in Python. -/
theorem c6_duplicate_title_eval :
    (generateTitles cloudOracle true cloudContent 2).map Candidate.title =
        ["Understanding Cloud Computing".data,
          "Understanding Cloud Computing".data] ∧
      ¬ ((generateTitles cloudOracle true cloudContent 2).map
          Candidate.title).Nodup :=
  ⟨by decide, by decide⟩

/-- C10 (confirmed). Every `clean_content` result has length at most 801,
and the bound is attained: the sentence loop checks the 800-character bound
before re-appending the kept sentence's dot, so a kept prefix of exactly
800 characters plus its dot reaches 801. -/
theorem c10_clean_content_length_bound :
    (∀ content : List Char, (cleanContent content).length ≤ 801) ∧
      (cleanContent aDotBB).length = 801 :=
  ⟨cleanContent_length_le, cleanContent_aDotBB_length⟩

/-! ## Claim C9: idempotence analysis of the title formatter

Character-level lemmas about the ASCII case maps. -/

theorem toNat_ofNat_small (n : Nat) (h : n < 55296) : (Char.ofNat n).toNat = n := by
  have hv : Nat.isValidChar n := Or.inl h
  unfold Char.ofNat
  rw [dif_pos hv]
  rfl

theorem charEqOfToNat {c d : Char} (h : c.toNat = d.toNat) : c = d :=
  Char.ext (UInt32.ext h)

theorem upChar_toNat (c : Char) :
    (upChar c).toNat =
      if 97 ≤ c.toNat ∧ c.toNat ≤ 122 then c.toNat - 32 else c.toNat := by
  unfold upChar
  split
  · exact toNat_ofNat_small _ (by omega)
  · rfl

theorem lowChar_toNat (c : Char) :
    (lowChar c).toNat =
      if 65 ≤ c.toNat ∧ c.toNat ≤ 90 then c.toNat + 32 else c.toNat := by
  unfold lowChar
  split
  · exact toNat_ofNat_small _ (by omega)
  · rfl

theorem upChar_fix {c : Char} (h : ¬ (97 ≤ c.toNat ∧ c.toNat ≤ 122)) :
    upChar c = c := by
  unfold upChar
  rw [if_neg h]

theorem lowChar_fix {c : Char} (h : ¬ (65 ≤ c.toNat ∧ c.toNat ≤ 90)) :
    lowChar c = c := by
  unfold lowChar
  rw [if_neg h]

theorem upChar_upChar (c : Char) : upChar (upChar c) = upChar c := by
  apply upChar_fix
  rw [upChar_toNat]
  split <;> omega

theorem lowChar_lowChar (c : Char) : lowChar (lowChar c) = lowChar c := by
  apply lowChar_fix
  rw [lowChar_toNat]
  split <;> omega

theorem upChar_lowChar (c : Char) : upChar (lowChar c) = upChar c := by
  by_cases h : 65 ≤ c.toNat ∧ c.toNat ≤ 90
  · have h1 : (lowChar c).toNat = c.toNat + 32 := by
      rw [lowChar_toNat, if_pos h]
    have h2 : upChar (lowChar c) = Char.ofNat ((lowChar c).toNat - 32) := by
      unfold upChar
      rw [if_pos (by omega)]
    have h3 : upChar c = c := upChar_fix (by omega)
    rw [h2, h3, h1]
    apply charEqOfToNat
    rw [toNat_ofNat_small _ (by omega)]
    omega
  · rw [lowChar_fix h]

theorem lowChar_upChar (c : Char) : lowChar (upChar c) = lowChar c := by
  by_cases h : 97 ≤ c.toNat ∧ c.toNat ≤ 122
  · have h1 : (upChar c).toNat = c.toNat - 32 := by
      rw [upChar_toNat, if_pos h]
    have h2 : lowChar (upChar c) = Char.ofNat ((upChar c).toNat + 32) := by
      unfold lowChar
      rw [if_pos (by omega)]
    have h3 : lowChar c = c := lowChar_fix (by omega)
    rw [h2, h3, h1]
    apply charEqOfToNat
    rw [toNat_ofNat_small _ (by omega)]
    omega
  · rw [upChar_fix h]

theorem isWS_upChar (c : Char) : isWS (upChar c) = isWS c := by
  unfold isWS
  rw [decide_eq_decide, upChar_toNat]
  split <;> omega

theorem isWS_lowChar (c : Char) : isWS (lowChar c) = isWS c := by
  unfold isWS
  rw [decide_eq_decide, lowChar_toNat]
  split <;> omega

/-- The three characters the formatter's quote-normalisation step acts on
are neither produced nor destroyed by the ASCII case maps. -/
theorem case_preserves_not_quotelike {c : Char}
    (h : c ≠ quoteChar ∧ c ≠ rsqChar ∧ c ≠ backqChar) :
    (upChar c ≠ quoteChar ∧ upChar c ≠ rsqChar ∧ upChar c ≠ backqChar) ∧
      (lowChar c ≠ quoteChar ∧ lowChar c ≠ rsqChar ∧ lowChar c ≠ backqChar) := by
  have hq : quoteChar.toNat = 34 := rfl
  have hr : rsqChar.toNat = 8217 := rfl
  have hb : backqChar.toNat = 96 := rfl
  have hcq : c.toNat ≠ 34 := fun hx => h.1 (charEqOfToNat (by rw [hx, hq]))
  have hcr : c.toNat ≠ 8217 := fun hx => h.2.1 (charEqOfToNat (by rw [hx, hr]))
  have hcb : c.toNat ≠ 96 := fun hx => h.2.2 (charEqOfToNat (by rw [hx, hb]))
  refine ⟨⟨?_, ?_, ?_⟩, ?_, ?_, ?_⟩ <;> intro hx
  · have h2 : (upChar c).toNat = 34 := by rw [hx, hq]
    rw [upChar_toNat] at h2
    split at h2 <;> omega
  · have h2 : (upChar c).toNat = 8217 := by rw [hx, hr]
    rw [upChar_toNat] at h2
    split at h2 <;> omega
  · have h2 : (upChar c).toNat = 96 := by rw [hx, hb]
    rw [upChar_toNat] at h2
    split at h2 <;> omega
  · have h2 : (lowChar c).toNat = 34 := by rw [hx, hq]
    rw [lowChar_toNat] at h2
    split at h2 <;> omega
  · have h2 : (lowChar c).toNat = 8217 := by rw [hx, hr]
    rw [lowChar_toNat] at h2
    split at h2 <;> omega
  · have h2 : (lowChar c).toNat = 96 := by rw [hx, hb]
    rw [lowChar_toNat] at h2
    split at h2 <;> omega

/-! String-level casing lemmas. -/

theorem map_map_eq (f g h : Char → Char) (hfgh : ∀ c, f (g c) = h c)
    (l : List Char) : (l.map g).map f = l.map h := by
  rw [List.map_map]
  exact List.map_congr_left fun c _ => hfgh c

theorem upperStr_upperStr (w : List Char) : upperStr (upperStr w) = upperStr w :=
  map_map_eq _ _ _ upChar_upChar w

theorem upperStr_lowerStr (w : List Char) : upperStr (lowerStr w) = upperStr w :=
  map_map_eq _ _ _ upChar_lowChar w

theorem lowerStr_lowerStr (w : List Char) : lowerStr (lowerStr w) = lowerStr w :=
  map_map_eq _ _ _ lowChar_lowChar w

theorem lowerStr_upperStr (w : List Char) : lowerStr (upperStr w) = lowerStr w :=
  map_map_eq _ _ _ lowChar_upChar w

theorem upperStr_capitalizePy (w : List Char) :
    upperStr (capitalizePy w) = upperStr w := by
  cases w with
  | nil => rfl
  | cons c cs =>
    show upChar (upChar c) :: upperStr (lowerStr cs) = upChar c :: upperStr cs
    rw [upChar_upChar, upperStr_lowerStr]

theorem lowerStr_capitalizePy (w : List Char) :
    lowerStr (capitalizePy w) = lowerStr w := by
  cases w with
  | nil => rfl
  | cons c cs =>
    show lowChar (upChar c) :: lowerStr (lowerStr cs) = lowChar c :: lowerStr cs
    rw [lowChar_upChar, lowerStr_lowerStr]

theorem capitalizePy_capitalizePy (w : List Char) :
    capitalizePy (capitalizePy w) = capitalizePy w := by
  cases w with
  | nil => rfl
  | cons c cs =>
    show upChar (upChar c) :: lowerStr (lowerStr cs) = upChar c :: lowerStr cs
    rw [upChar_upChar, lowerStr_lowerStr]

theorem capitalizePy_length (w : List Char) :
    (capitalizePy w).length = w.length := by
  cases w with
  | nil => rfl
  | cons c cs =>
    show (upChar c :: lowerStr cs).length = (c :: cs).length
    simp [lowerStr]

theorem upperStr_length (w : List Char) : (upperStr w).length = w.length := by
  simp [upperStr]

theorem lowerStr_length (w : List Char) : (lowerStr w).length = w.length := by
  simp [lowerStr]

/-- Every character of a cased word is the image of an original character
under one of the two ASCII case maps. -/
theorem caseWord_chars (i : Nat) (w : List Char) :
    ∀ c2 ∈ caseWord i w, ∃ c ∈ w, c2 = upChar c ∨ c2 = lowChar c := by
  intro c2 hc2
  rw [caseWord] at hc2
  split_ifs at hc2
  · rcases List.mem_map.mp hc2 with ⟨c, hc, rfl⟩
    exact ⟨c, hc, Or.inl rfl⟩
  · cases w with
    | nil => exact absurd hc2 (List.not_mem_nil c2)
    | cons d ds =>
      rcases List.mem_cons.mp hc2 with rfl | hc2
      · exact ⟨d, by simp, Or.inl rfl⟩
      · rcases List.mem_map.mp hc2 with ⟨c, hc, rfl⟩
        exact ⟨c, by simp [hc], Or.inr rfl⟩
  · rcases List.mem_map.mp hc2 with ⟨c, hc, rfl⟩
    exact ⟨c, hc, Or.inr rfl⟩
  · cases w with
    | nil => exact absurd hc2 (List.not_mem_nil c2)
    | cons d ds =>
      rcases List.mem_cons.mp hc2 with rfl | hc2
      · exact ⟨d, by simp, Or.inl rfl⟩
      · rcases List.mem_map.mp hc2 with ⟨c, hc, rfl⟩
        exact ⟨c, by simp [hc], Or.inr rfl⟩
  · rcases List.mem_map.mp hc2 with ⟨c, hc, rfl⟩
    exact ⟨c, hc, Or.inr rfl⟩

theorem caseWord_length (i : Nat) (w : List Char) :
    (caseWord i w).length = w.length := by
  rw [caseWord]
  split_ifs <;>
    first
      | rw [upperStr_length]
      | rw [lowerStr_length]
      | rw [capitalizePy_length]

/-- The casing of a word depends only on the word and its position, and is
a projection: applying it twice at the same position changes nothing. -/
theorem caseWord_caseWord (i : Nat) (w : List Char) :
    caseWord i (caseWord i w) = caseWord i w := by
  by_cases hA : upperStr w ∈ alwaysCaps
  · have hv : caseWord i w = upperStr w := by
      rw [caseWord, if_pos hA]
    rw [hv, caseWord, upperStr_upperStr, if_pos hA]
  · by_cases h0 : i = 0
    · have hv : caseWord i w = capitalizePy w := by
        rw [caseWord, if_neg hA, if_pos h0]
      rw [hv, caseWord, upperStr_capitalizePy, if_neg hA, if_pos h0,
        capitalizePy_capitalizePy]
    · by_cases hS : lowerStr w ∈ articlesPreps
      · have hv : caseWord i w = lowerStr w := by
          rw [caseWord, if_neg hA, if_neg h0, if_pos hS]
        rw [hv, caseWord, upperStr_lowerStr, if_neg hA, if_neg h0,
          lowerStr_lowerStr, if_pos hS]
      · by_cases hL : 3 < w.length
        · have hv : caseWord i w = capitalizePy w := by
            rw [caseWord, if_neg hA, if_neg h0, if_neg hS, if_pos hL]
          rw [hv, caseWord, upperStr_capitalizePy, if_neg hA, if_neg h0,
            lowerStr_capitalizePy, if_neg hS, capitalizePy_length, if_pos hL,
            capitalizePy_capitalizePy]
        · have hv : caseWord i w = lowerStr w := by
            rw [caseWord, if_neg hA, if_neg h0, if_neg hS, if_neg hL]
          rw [hv, caseWord, upperStr_lowerStr, if_neg hA, if_neg h0,
            lowerStr_lowerStr, if_neg hS, lowerStr_length, if_neg hL]

/-! Splitting and joining lemmas for the formatter's whitespace handling. -/

theorem wordsAux_props :
    ∀ (l cur : List Char), (∀ c ∈ cur, isWS c = false) →
      ∀ w ∈ wordsAux l cur,
        w ≠ [] ∧ ∀ c ∈ w, isWS c = false ∧ (c ∈ l ∨ c ∈ cur) := by
  intro l
  induction l with
  | nil =>
    intro cur hcur w hw
    rw [wordsAux] at hw
    split at hw
    · exact absurd hw (List.not_mem_nil w)
    · rename_i hne
      rw [List.mem_singleton.mp hw]
      refine ⟨by simpa using hne, ?_⟩
      intro c hc
      rw [List.mem_reverse] at hc
      exact ⟨hcur c hc, Or.inr hc⟩
  | cons d ds ih =>
    intro cur hcur w hw
    rw [wordsAux] at hw
    split at hw
    · split at hw
      · rcases ih [] (by simp) w hw with ⟨hne, hc⟩
        refine ⟨hne, ?_⟩
        intro c hc2
        rcases hc c hc2 with ⟨hws, hin | hin⟩
        · exact ⟨hws, Or.inl (by simp [hin])⟩
        · exact absurd hin (List.not_mem_nil c)
      · rcases List.mem_cons.mp hw with rfl | hw
        · rename_i hcurne
          refine ⟨by simpa using hcurne, ?_⟩
          intro c hc
          rw [List.mem_reverse] at hc
          exact ⟨hcur c hc, Or.inr hc⟩
        · rcases ih [] (by simp) w hw with ⟨hne, hc⟩
          refine ⟨hne, ?_⟩
          intro c hc2
          rcases hc c hc2 with ⟨hws, hin | hin⟩
          · exact ⟨hws, Or.inl (by simp [hin])⟩
          · exact absurd hin (List.not_mem_nil c)
    · rename_i hd
      have hcur2 : ∀ c ∈ d :: cur, isWS c = false := by
        intro c hc
        rcases List.mem_cons.mp hc with rfl | hc
        · simpa using hd
        · exact hcur c hc
      rcases ih (d :: cur) hcur2 w hw with ⟨hne, hc⟩
      refine ⟨hne, ?_⟩
      intro c hc2
      rcases hc c hc2 with ⟨hws, hin | hin⟩
      · exact ⟨hws, Or.inl (by simp [hin])⟩
      · rcases List.mem_cons.mp hin with rfl | hin
        · exact ⟨hws, Or.inl (by simp)⟩
        · exact ⟨hws, Or.inr hin⟩

theorem wordsOf_props (l : List Char) :
    ∀ w ∈ wordsOf l, w ≠ [] ∧ ∀ c ∈ w, isWS c = false ∧ c ∈ l := by
  intro w hw
  rcases wordsAux_props l [] (by simp) w hw with ⟨hne, hc⟩
  refine ⟨hne, ?_⟩
  intro c hc2
  rcases hc c hc2 with ⟨hws, hin | hin⟩
  · exact ⟨hws, hin⟩
  · exact absurd hin (List.not_mem_nil c)

theorem wordsAux_chunk (w : List Char) (hw : ∀ c ∈ w, isWS c = false) :
    ∀ (rest cur : List Char),
      wordsAux (w ++ rest) cur = wordsAux rest (w.reverse ++ cur) := by
  induction w with
  | nil =>
    intro rest cur
    rfl
  | cons c cs ih =>
    intro rest cur
    have hc : isWS c = false := hw c (by simp)
    have hcs : ∀ x ∈ cs, isWS x = false := fun x hx => hw x (by simp [hx])
    rw [List.cons_append, wordsAux, hc]
    simp only [Bool.false_eq_true, if_false]
    rw [ih hcs rest (c :: cur)]
    congr 1
    simp

theorem wordsOf_joinSp :
    ∀ ts : List (List Char),
      (∀ w ∈ ts, w ≠ [] ∧ ∀ c ∈ w, isWS c = false) →
      wordsOf (joinSp ts) = ts := by
  intro ts
  induction ts with
  | nil =>
    intro _
    rfl
  | cons w ws ih =>
    intro h
    rcases h w (by simp) with ⟨hne, hwc⟩
    cases ws with
    | nil =>
      show wordsAux (joinSp [w]) [] = [w]
      rw [joinSp_single]
      rw [show w = w ++ [] from (List.append_nil w).symm, wordsAux_chunk w hwc]
      rw [wordsAux]
      rw [if_neg (by simpa using hne)]
      simp
    | cons w2 ws2 =>
      show wordsAux (w ++ ' ' :: joinSp (w2 :: ws2)) [] = w :: w2 :: ws2
      rw [wordsAux_chunk w hwc, wordsAux]
      rw [if_pos (by decide)]
      rw [if_neg (by simpa using hne)]
      have ih2 := ih fun x hx => h x (by simp [hx])
      rw [show wordsAux (joinSp (w2 :: ws2)) [] = wordsOf (joinSp (w2 :: ws2))
        from rfl, ih2]
      simp

theorem joinSp_ne_nil (ts : List (List Char)) (hne : ts ≠ [])
    (h : ∀ w ∈ ts, w ≠ []) : joinSp ts ≠ [] := by
  cases ts with
  | nil => exact absurd rfl hne
  | cons w ws =>
    cases ws with
    | nil =>
      rw [joinSp_single]
      exact h w (by simp)
    | cons w2 ws2 =>
      show w ++ ' ' :: joinSp (w2 :: ws2) ≠ []
      simp

theorem joinSp_mem :
    ∀ (ts : List (List Char)) (c : Char),
      c ∈ joinSp ts → c = ' ' ∨ ∃ w ∈ ts, c ∈ w := by
  intro ts
  induction ts with
  | nil =>
    intro c hc
    exact absurd hc (List.not_mem_nil c)
  | cons w ws ih =>
    intro c hc
    cases ws with
    | nil =>
      rw [joinSp_single] at hc
      exact Or.inr ⟨w, by simp, hc⟩
    | cons w2 ws2 =>
      rw [show joinSp (w :: w2 :: ws2) = w ++ ' ' :: joinSp (w2 :: ws2)
        from rfl] at hc
      rcases List.mem_append.mp hc with hc | hc
      · exact Or.inr ⟨w, by simp, hc⟩
      · rcases List.mem_cons.mp hc with rfl | hc
        · exact Or.inl rfl
        · rcases ih c hc with h | ⟨v, hv, hcv⟩
          · exact Or.inl h
          · exact Or.inr ⟨v, by simp [hv], hcv⟩

theorem dropTrailingDots_id (l : List Char) (h : l.getLast? ≠ some '.') :
    dropTrailingDots l = l := by
  rw [dropTrailingDots]
  cases hrev : l.reverse with
  | nil =>
    rw [List.dropWhile_nil]
    rw [← hrev, List.reverse_reverse]
  | cons c cs =>
    have hc : ¬ c = '.' := by
      intro hc
      apply h
      rw [← List.head?_reverse, hrev, hc]
      rfl
    rw [List.dropWhile_cons_of_neg (by simpa using hc)]
    rw [← hrev, List.reverse_reverse]

theorem dropTrailingDots_subset (l : List Char) :
    ∀ c ∈ dropTrailingDots l, c ∈ l := by
  intro c hc
  rw [dropTrailingDots, List.mem_reverse] at hc
  have := (List.dropWhile_sublist (l := l.reverse)
    (fun c => decide (c = '.'))).subset hc
  rw [List.mem_reverse] at this
  exact this

/-! Assembly of the conditional idempotence of the formatter. -/

theorem titleQuotes_chars (l : List Char) :
    ∀ c ∈ titleQuotes l, c ≠ quoteChar ∧ c ≠ rsqChar ∧ c ≠ backqChar := by
  intro c hc
  rw [titleQuotes] at hc
  rcases List.mem_map.mp hc with ⟨d, hd, rfl⟩
  have hdq : ¬ d = quoteChar := by
    have := (List.mem_filter.mp hd).2
    simpa using this
  by_cases h1 : d = rsqChar
  · rw [if_pos h1]
    exact ⟨by decide, by decide, by decide⟩
  · rw [if_neg h1]
    by_cases h2 : d = backqChar
    · rw [if_pos h2]
      exact ⟨by decide, by decide, by decide⟩
    · rw [if_neg h2]
      exact ⟨hdq, h1, h2⟩

theorem map_id_of_mem {f : Char → Char} (l : List Char)
    (h : ∀ c ∈ l, f c = c) : l.map f = l := by
  induction l with
  | nil => rfl
  | cons c cs ih =>
    rw [List.map_cons, h c (by simp), ih fun x hx => h x (by simp [hx])]

theorem titleQuotes_id (l : List Char)
    (h : ∀ c ∈ l, c ≠ quoteChar ∧ c ≠ rsqChar ∧ c ≠ backqChar) :
    titleQuotes l = l := by
  rw [titleQuotes]
  have hfil : (l.filter fun c => ¬ c = quoteChar) = l := by
    rw [List.filter_eq_self]
    intro c hc
    simpa using (h c hc).1
  rw [hfil]
  apply map_id_of_mem
  intro c hc
  rw [if_neg (h c hc).2.1, if_neg (h c hc).2.2]

theorem collapseWS_mem (l : List Char) :
    ∀ c ∈ collapseWS l, c = ' ' ∨ c ∈ l := by
  intro c hc
  rw [collapseWS] at hc
  rcases joinSp_mem _ c hc with h | ⟨w, hw, hcw⟩
  · exact Or.inl h
  · exact Or.inr ((wordsOf_props l w hw).2 c hcw).2

theorem caseWords_ne_nil (i : Nat) (ts : List (List Char)) (h : ts ≠ []) :
    caseWords i ts ≠ [] := by
  cases ts with
  | nil => exact absurd rfl h
  | cons w ws =>
    rw [caseWords]
    simp

theorem caseWords_caseWords (i : Nat) (ts : List (List Char)) :
    caseWords i (caseWords i ts) = caseWords i ts := by
  induction ts generalizing i with
  | nil => rfl
  | cons w ws ih =>
    rw [caseWords, caseWords, caseWord_caseWord, ih]

theorem caseWords_props (i : Nat) (ts : List (List Char))
    (h : ∀ w ∈ ts, w ≠ [] ∧ (∀ c ∈ w, isWS c = false) ∧
      ∀ c ∈ w, c ≠ quoteChar ∧ c ≠ rsqChar ∧ c ≠ backqChar) :
    ∀ w2 ∈ caseWords i ts, w2 ≠ [] ∧ (∀ c ∈ w2, isWS c = false) ∧
      ∀ c ∈ w2, c ≠ quoteChar ∧ c ≠ rsqChar ∧ c ≠ backqChar := by
  induction ts generalizing i with
  | nil =>
    intro w2 hw2
    exact absurd hw2 (List.not_mem_nil w2)
  | cons w ws ih =>
    intro w2 hw2
    rw [caseWords] at hw2
    rcases List.mem_cons.mp hw2 with rfl | hw2
    · rcases h w (by simp) with ⟨hne, hws, hgood⟩
      refine ⟨?_, ?_, ?_⟩
      · intro hnil
        apply hne
        have := caseWord_length i w
        rw [hnil] at this
        exact List.eq_nil_of_length_eq_zero this.symm
      · intro c hc
        rcases caseWord_chars i w c hc with ⟨d, hd, rfl | rfl⟩
        · rw [isWS_upChar]
          exact hws d hd
        · rw [isWS_lowChar]
          exact hws d hd
      · intro c hc
        rcases caseWord_chars i w c hc with ⟨d, hd, rfl | rfl⟩
        · exact (case_preserves_not_quotelike (hgood d hd)).1
        · exact (case_preserves_not_quotelike (hgood d hd)).2
    · exact ih (i + 1) (fun x hx => h x (by simp [hx])) w2 hw2

/-- C9 (corrected). The formatter is idempotent on every input whose
formatted output does not end with a `.` character. (It is not idempotent
in general: when `rstrip('.')` exposes a word that itself ends in periods,
the output ends with a period that a second pass would strip.) -/
theorem c9_format_idempotent_amended (s : List Char)
    (h : (cleanTitle s).getLast? ≠ some '.') :
    cleanTitle (cleanTitle s) = cleanTitle s := by
  by_cases hs : s = []
  · rw [hs]
    rfl
  · by_cases hws : wordsOf (dropTrailingDots (collapseWS (titleQuotes s))) = []
    · have hcs : cleanTitle s = [] := by
        rw [cleanTitle, if_neg hs, if_pos hws]
      rw [hcs]
      rfl
    · have hO : cleanTitle s = joinSp (caseWords 0
          (wordsOf (dropTrailingDots (collapseWS (titleQuotes s))))) := by
        rw [cleanTitle, if_neg hs, if_neg hws]
      -- properties of the tokens entering the casing loop
      have htok : ∀ w ∈ wordsOf (dropTrailingDots (collapseWS (titleQuotes s))),
          w ≠ [] ∧ (∀ c ∈ w, isWS c = false) ∧
            ∀ c ∈ w, c ≠ quoteChar ∧ c ≠ rsqChar ∧ c ≠ backqChar := by
        intro w hw
        rcases wordsOf_props _ w hw with ⟨hne, hc⟩
        refine ⟨hne, fun c hc2 => (hc c hc2).1, ?_⟩
        intro c hc2
        have hmem := (hc c hc2).2
        have hmem2 := dropTrailingDots_subset _ c hmem
        rcases collapseWS_mem _ c hmem2 with rfl | hmem3
        · exact ⟨by decide, by decide, by decide⟩
        · exact titleQuotes_chars _ c hmem3
      have hcased := caseWords_props 0 _ htok
      -- the output and its tokens
      have hO_ne : cleanTitle s ≠ [] := by
        rw [hO]
        exact joinSp_ne_nil _ (caseWords_ne_nil _ _ hws)
          fun w hw => (hcased w hw).1
      have hquotes : titleQuotes (cleanTitle s) = cleanTitle s := by
        apply titleQuotes_id
        intro c hc
        rw [hO] at hc
        rcases joinSp_mem _ c hc with rfl | ⟨w, hw, hcw⟩
        · exact ⟨by decide, by decide, by decide⟩
        · exact (hcased w hw).2.2 c hcw
      have hround : wordsOf (cleanTitle s) = caseWords 0
          (wordsOf (dropTrailingDots (collapseWS (titleQuotes s)))) := by
        rw [hO]
        exact wordsOf_joinSp _ fun w hw =>
          ⟨(hcased w hw).1, (hcased w hw).2.1⟩
      have hcollapse : collapseWS (cleanTitle s) = cleanTitle s := by
        rw [collapseWS, hround, hO]
      have hdrop : dropTrailingDots (cleanTitle s) = cleanTitle s :=
        dropTrailingDots_id _ h
      have hws2 : wordsOf (dropTrailingDots (collapseWS
          (titleQuotes (cleanTitle s)))) ≠ [] := by
        rw [hquotes, hcollapse, hdrop, hround]
        exact caseWords_ne_nil _ _ hws
      rw [cleanTitle, if_neg hO_ne, if_neg hws2, hquotes, hcollapse, hdrop,
        hround, caseWords_caseWords, ← hO]

/-- Counterexample to C9 as stated: formatting `". ."` yields `"."` (the
trailing-dot strip exposes a token that is itself a dot), and formatting
`"."` yields `""` — the formatter is not idempotent on every input. -/
theorem c9_counterexample_trailing_dot :
    cleanTitle (cleanTitle dotSpaceDot) ≠ cleanTitle dotSpaceDot :=
  by decide

/-- Witness for C9's amended statement at a concrete title. -/
theorem c9_format_idempotent_amended_witness :
    (cleanTitle plainTitle).getLast? ≠ some '.' ∧
      cleanTitle (cleanTitle plainTitle) = cleanTitle plainTitle :=
  ⟨by decide, c9_format_idempotent_amended plainTitle (by decide)⟩

end TitleGen
